import Mathlib

/-!
A verification development for a triangular-arbitrage analysis core
consisting of two components:

* a cycle builder (`structure_triangular_pairs`) that enumerates triangular
  cycles from a flat list of market symbols of the shape "BASE-QUOTE", and
* a surface-rate calculator (`cal_triangular_arb_surface_rate`) that, for one
  cycle and a snapshot of best bid/ask quotes, computes the fee-adjusted
  arbitrage rate in the forward and the reverse direction.

Numbers are modelled by `EDec`: exact rationals extended with the two signed
infinities of the underlying arbitrary-precision decimal library (the
library's precision-10 rounding is abstracted to exact arithmetic, which
preserves branch structure, signs, finiteness and the infinity sentinels).
Operations whose result is undefined in the library (such as multiplying an
infinity by zero, which traps) are modelled with `Option`: `none` is a raised
arithmetic fault.  Strings are modelled by `String`; the per-character split
on the dash separator is `splitCore`.
-/

/-- An arbitrary-precision decimal value: a finite rational, or one of the
two infinities used as sentinels.  `NaN` does not occur because every
operation that would produce it traps instead; such operations are modelled
as `Option`-valued with result `none`. -/
inductive EDec where
  | fin : ℚ → EDec
  | posInf : EDec
  | negInf : EDec
deriving DecidableEq, Repr

/-- Decimal multiplication.  An infinity times zero is an invalid operation
and traps (`none`); all other products are defined with the usual sign
rules. -/
def dmul : EDec → EDec → Option EDec
  | .fin a, .fin b => some (.fin (a * b))
  | .fin a, .posInf => if a = 0 then none else if 0 < a then some .posInf else some .negInf
  | .fin a, .negInf => if a = 0 then none else if 0 < a then some .negInf else some .posInf
  | .posInf, .fin b => if b = 0 then none else if 0 < b then some .posInf else some .negInf
  | .negInf, .fin b => if b = 0 then none else if 0 < b then some .negInf else some .posInf
  | .posInf, .posInf => some .posInf
  | .posInf, .negInf => some .negInf
  | .negInf, .posInf => some .negInf
  | .negInf, .negInf => some .posInf

/-- Decimal division.  Division by zero traps (the caller `safe_divide`
guards this), as does infinity divided by infinity. -/
def ddiv : EDec → EDec → Option EDec
  | .fin a, .fin b => if b = 0 then none else some (.fin (a / b))
  | .fin _, .posInf => some (.fin 0)
  | .fin _, .negInf => some (.fin 0)
  | .posInf, .fin b => if b = 0 then none else if 0 < b then some .posInf else some .negInf
  | .negInf, .fin b => if b = 0 then none else if 0 < b then some .negInf else some .posInf
  | .posInf, .posInf => none
  | .posInf, .negInf => none
  | .negInf, .posInf => none
  | .negInf, .negInf => none

/-- Decimal subtraction.  Infinity minus infinity of the same sign traps. -/
def dsub : EDec → EDec → Option EDec
  | .fin a, .fin b => some (.fin (a - b))
  | .fin _, .posInf => some .negInf
  | .fin _, .negInf => some .posInf
  | .posInf, .fin _ => some .posInf
  | .negInf, .fin _ => some .negInf
  | .posInf, .posInf => none
  | .posInf, .negInf => some .posInf
  | .negInf, .posInf => some .negInf
  | .negInf, .negInf => none

/-- `safe_divide(numerator, denominator)` from the source: returns
`numerator / denominator` unless the denominator equals zero, in which case
it returns the infinite sentinel. -/
def safe_divide (numerator denominator : EDec) : Option EDec :=
  if denominator = EDec.fin 0 then some EDec.posInf else ddiv numerator denominator

/-- The total value of `safe_divide` at numerator one: the reciprocal with
the zero denominator mapped to the infinite sentinel and an infinite
denominator mapped to zero. -/
def recip1 : EDec → EDec
  | .fin q => if q = 0 then .posInf else .fin (1 / q)
  | .posInf => .fin 0
  | .negInf => .fin 0

/-- A finite decimal. -/
def EDec.isFinite : EDec → Bool
  | .fin _ => true
  | _ => false

/-- Strict order on extended decimals, as a boolean. -/
def dltB : EDec → EDec → Bool
  | .fin a, .fin b => decide (a < b)
  | .fin _, .posInf => true
  | .negInf, .fin _ => true
  | .negInf, .posInf => true
  | _, _ => false

/-- A price snapshot: association list from "<market>_ask" / "<market>_bid"
keys to decimal quotes, with first-match lookup (the keys of a dictionary
are unique, so first-match lookup agrees with dictionary lookup). -/
def pget (k : String) (d : EDec) : List (String × EDec) → EDec
  | [] => d
  | (k', v) :: rest => if k' = k then v else pget k d rest

/-- One triangular cycle as built by the cycle builder: the three market
symbols, the six currency symbols extracted from them, and the
comma-separated combined label. -/
structure TPair where
  a_base : String
  b_base : String
  c_base : String
  a_quote : String
  b_quote : String
  c_quote : String
  pair_a : String
  pair_b : String
  pair_c : String
  combined : String
deriving DecidableEq, Repr

/-- The six currency symbols of a cycle in the order used by the builder's
membership counts. -/
def sym_box (tp : TPair) : List String :=
  [tp.a_base, tp.a_quote, tp.b_base, tp.b_quote, tp.c_base, tp.c_quote]

/-- The closure invariant of a cycle: the six currency symbols contain
exactly three distinct values, each with multiplicity exactly two. -/
def closure_invariant (tp : TPair) : Prop :=
  (sym_box tp).dedup.length = 3 ∧ ∀ s ∈ sym_box tp, (sym_box tp).count s = 2

instance (tp : TPair) : Decidable (closure_invariant tp) := by
  unfold closure_invariant; infer_instance

/-- Split a character list at every dash, mirroring the source's
single-character string split: `"A-B" ↦ ["A", "B"]`, `"A" ↦ ["A"]`,
`"A-B-C" ↦ ["A", "B", "C"]`. -/
def splitCore : List Char → List (List Char)
  | [] => [[]]
  | c :: rest =>
    if c = '-' then [] :: splitCore rest
    else
      match splitCore rest with
      | [] => [[c]]
      | g :: gs => (c :: g) :: gs

/-- Split a market symbol on the dash separator. -/
def split_market (s : String) : List String :=
  (splitCore s.data).map String.mk

/-- Destructure a market symbol into its base and quote part.  A symbol that
does not split into exactly two parts makes the two-element unpacking fail;
the raised error carries the offending symbol. -/
def splitPair (s : String) : Except String (String × String) :=
  match split_market s with
  | [b, q] => Except.ok (b, q)
  | _ => Except.error s

/-- Lexicographic comparison of character lists by code point, the order the
source's sort uses on market symbols. -/
def strLeB : List Char → List Char → Bool
  | [], _ => true
  | _ :: _, [] => false
  | a :: as, b :: bs => if a < b then true else if b < a then false else strLeB as bs

/-- Lexicographic order on strings. -/
def strLe (s t : String) : Prop := strLeB s.data t.data = true

instance : DecidableRel strLe := fun s t => by
  unfold strLe; infer_instance

/-- The canonical deduplication key of a candidate cycle: the three market
symbols sorted and concatenated. -/
def unique_key (pa pb pc : String) : String :=
  String.join (List.insertionSort strLe [pa, pb, pc])

/-- The mutable state of the cycle builder: the list of accepted cycles and
the list of deduplication keys already seen. -/
structure BuildState where
  triangular_pairs_list : List TPair
  remove_duplicates_list : List String
deriving Repr

/-- The body of the innermost loop of the cycle builder: given the already
split pair_a and pair_b and the freshly split pair_c, check distinctness,
the closure counts and the deduplication key, and append the accepted
cycle. -/
def stepC (pa ab aq pb bb bq pc cb cq : String) (st : BuildState) : BuildState :=
  if pc ≠ pa ∧ pc ≠ pb then
    if List.count cb [ab, aq, bb, bq, cb, cq] = 2 ∧
        List.count cq [ab, aq, bb, bq, cb, cq] = 2 ∧ cb ≠ cq then
      if unique_key pa pb pc ∈ st.remove_duplicates_list then st
      else
        ⟨st.triangular_pairs_list ++
           [⟨ab, bb, cb, aq, bq, cq, pa, pb, pc, pa ++ "," ++ pb ++ "," ++ pc⟩],
         st.remove_duplicates_list ++ [unique_key pa pb pc]⟩
    else st
  else st

/-- The innermost loop over pair_c candidates; every candidate is split
before any condition is checked, so a malformed symbol raises. -/
def loopC (pa ab aq pb bb bq : String) (st : BuildState) :
    List String → Except String BuildState
  | [] => Except.ok st
  | pc :: rest =>
    match splitPair pc with
    | Except.error e => Except.error e
    | Except.ok (cb, cq) => loopC pa ab aq pb bb bq (stepC pa ab aq pb bb bq pc cb cq st) rest

/-- The middle loop over pair_b candidates: split, then require pair_b to be
distinct from pair_a and to share a currency with pair_a before running the
inner loop over the whole market list. -/
def loopB (pairs_list : List String) (pa ab aq : String) (st : BuildState) :
    List String → Except String BuildState
  | [] => Except.ok st
  | pb :: rest =>
    match splitPair pb with
    | Except.error e => Except.error e
    | Except.ok (bb, bq) =>
      if pb ≠ pa ∧ (bb = ab ∨ bb = aq ∨ bq = ab ∨ bq = aq) then
        match loopC pa ab aq pb bb bq st pairs_list with
        | Except.error e => Except.error e
        | Except.ok st' => loopB pairs_list pa ab aq st' rest
      else loopB pairs_list pa ab aq st rest

/-- The outer loop over pair_a candidates. -/
def loopA (pairs_list : List String) (st : BuildState) :
    List String → Except String BuildState
  | [] => Except.ok st
  | pa :: rest =>
    match splitPair pa with
    | Except.error e => Except.error e
    | Except.ok (ab, aq) =>
      match loopB pairs_list pa ab aq st pairs_list with
      | Except.error e => Except.error e
      | Except.ok st' => loopA pairs_list st' rest

/-- `structure_triangular_pairs` from the source: enumerate every ordered
triple of distinct markets, keep the triples that close a triangle, and
deduplicate permutations through the sorted-concatenation key.  A market
symbol that does not split into exactly base and quote raises. -/
def structure_triangular_pairs (coin_list : List String) : Except String (List TPair) :=
  match loopA coin_list ⟨[], []⟩ coin_list with
  | Except.error e => Except.error e
  | Except.ok st => Except.ok st.triangular_pairs_list

/-- The swap-2 / swap-3 data chosen by the direction-dependent dispatch:
contract, rate and direction tag for the second and the third swap. -/
structure SwapSel where
  contract_2 : String
  swap_2_rate : EDec
  direction_trade_2 : String
  contract_3 : String
  swap_3_rate : EDec
  direction_trade_3 : String
deriving DecidableEq, Repr

/-- `determine_swap_details` from the source: the first swap is always on
pair_a; forward uses rate `1/ask` with tag "base_to_quote", reverse uses the
bid with tag "quote_to_base". -/
def determine_swap_details (base quote : String) (ask bid : EDec) (direction : String) :
    Option (String × String × EDec × String) :=
  if direction = "forward" then
    match safe_divide (EDec.fin 1) ask with
    | none => none
    | some r => some (base, quote, r, "base_to_quote")
  else some (quote, base, bid, "quote_to_base")

/-- The forward-direction dispatch of the second and third swaps (source
lines 163 to 202): compare a_quote with b_quote / b_base, then the running
output with c_base. -/
def select_forward (tp : TPair) (pd : List (String × EDec)) : Option SwapSel :=
  if tp.a_quote = tp.b_quote then
    let swap_2_rate := pget (tp.pair_b ++ "_bid") (EDec.fin 0) pd
    if tp.b_base = tp.c_base then
      match safe_divide (EDec.fin 1) (pget (tp.pair_c ++ "_ask") EDec.posInf pd) with
      | none => none
      | some r3 => some ⟨tp.pair_b, swap_2_rate, "quote_to_base", tp.pair_c, r3, "base_to_quote"⟩
    else
      some ⟨tp.pair_b, swap_2_rate, "quote_to_base",
            tp.pair_c, pget (tp.pair_c ++ "_bid") (EDec.fin 0) pd, "quote_to_base"⟩
  else if tp.a_quote = tp.b_base then
    match safe_divide (EDec.fin 1) (pget (tp.pair_b ++ "_ask") EDec.posInf pd) with
    | none => none
    | some r2 =>
      if tp.b_quote = tp.c_base then
        match safe_divide (EDec.fin 1) (pget (tp.pair_c ++ "_ask") EDec.posInf pd) with
        | none => none
        | some r3 => some ⟨tp.pair_b, r2, "base_to_quote", tp.pair_c, r3, "base_to_quote"⟩
      else
        some ⟨tp.pair_b, r2, "base_to_quote",
              tp.pair_c, pget (tp.pair_c ++ "_bid") (EDec.fin 0) pd, "quote_to_base"⟩
  else
    let swap_2_rate := pget (tp.pair_b ++ "_bid") (EDec.fin 0) pd
    if tp.b_quote = tp.c_base then
      match safe_divide (EDec.fin 1) (pget (tp.pair_c ++ "_ask") EDec.posInf pd) with
      | none => none
      | some r3 => some ⟨tp.pair_b, swap_2_rate, "quote_to_base", tp.pair_c, r3, "base_to_quote"⟩
    else
      some ⟨tp.pair_b, swap_2_rate, "quote_to_base",
            tp.pair_c, pget (tp.pair_c ++ "_bid") (EDec.fin 0) pd, "quote_to_base"⟩

/-- The reverse-direction dispatch of the second and third swaps (source
lines 205 to 230).  When neither `a_base = b_base` nor `a_base = b_quote`
holds there is no else branch in the source, so the loop variables keep the
values assigned during the forward iteration: the `prev` argument. -/
def select_reverse (tp : TPair) (pd : List (String × EDec)) (prev : SwapSel) : Option SwapSel :=
  if tp.a_base = tp.b_base then
    match safe_divide (EDec.fin 1) (pget (tp.pair_b ++ "_ask") EDec.posInf pd) with
    | none => none
    | some r2 =>
      if tp.b_quote = tp.c_quote then
        some ⟨tp.pair_b, r2, "base_to_quote",
              tp.pair_c, pget (tp.pair_c ++ "_bid") (EDec.fin 0) pd, "quote_to_base"⟩
      else
        match safe_divide (EDec.fin 1) (pget (tp.pair_c ++ "_ask") EDec.posInf pd) with
        | none => none
        | some r3 => some ⟨tp.pair_b, r2, "base_to_quote", tp.pair_c, r3, "base_to_quote"⟩
  else if tp.a_base = tp.b_quote then
    let swap_2_rate := pget (tp.pair_b ++ "_bid") (EDec.fin 0) pd
    if tp.b_base = tp.c_quote then
      some ⟨tp.pair_b, swap_2_rate, "quote_to_base",
            tp.pair_c, pget (tp.pair_c ++ "_bid") (EDec.fin 0) pd, "quote_to_base"⟩
    else
      match safe_divide (EDec.fin 1) (pget (tp.pair_c ++ "_ask") EDec.posInf pd) with
      | none => none
      | some r3 => some ⟨tp.pair_b, swap_2_rate, "quote_to_base", tp.pair_c, r3, "base_to_quote"⟩
  else some prev

/-- One step of the final accumulation loop:
`final_amount *= swap_rate * (1 - trading_fee)`. -/
def apply_swap (fee : ℚ) (amount : Option EDec) (rate : EDec) : Option EDec := do
  let a ← amount
  let s ← dmul rate (EDec.fin (1 - fee))
  dmul a s

/-- The final arbitrage rate of one direction: fold the three fee-adjusted
swap rates over the starting amount of one, divide by the starting amount
and subtract one. -/
def finalize (fee : ℚ) (r1 r2 r3 : EDec) : Option EDec := do
  let final_amount ← [r1, r2, r3].foldl (apply_swap fee) (some (EDec.fin 1))
  let q ← ddiv final_amount (EDec.fin 1)
  dsub q (EDec.fin 1)

/-- The per-direction entry of the surface dictionary: the first swap's
currency pair, rate and tag, the second and third swaps' contract, rate and
tag, and the net arbitrage rate. -/
structure DirResult where
  swap_1 : String × String × EDec × String
  swap_2 : String × EDec × String
  swap_3 : String × EDec × String
  arbitrage_rate : EDec
deriving DecidableEq, Repr

/-- The surface dictionary: one result per traversal direction. -/
structure Surface where
  forward : DirResult
  reverse : DirResult
deriving DecidableEq, Repr

/-- `cal_triangular_arb_surface_rate` from the source.  The forward
direction is evaluated first; the reverse direction's second and third swap
variables fall back to the forward values when no reverse branch fires.
`none` is a raised decimal fault (an infinity multiplied by zero). -/
def cal_triangular_arb_surface_rate (tp : TPair) (pd : List (String × EDec)) (fee : ℚ) :
    Option Surface := do
  let ask_a := pget (tp.pair_a ++ "_ask") EDec.posInf pd
  let bid_a := pget (tp.pair_a ++ "_bid") (EDec.fin 0) pd
  -- forward iteration
  let (swap_1f, swap_2f, swap_1_rate_f, trade_1f) ←
    determine_swap_details tp.a_base tp.a_quote ask_a bid_a "forward"
  let t1f ← dmul (EDec.fin 1) swap_1_rate_f
  let _acquired_coin_t1_f ← dmul t1f (EDec.fin (1 - fee))
  let self_f ← select_forward tp pd
  let arb_f ← finalize fee swap_1_rate_f self_f.swap_2_rate self_f.swap_3_rate
  -- reverse iteration, with the forward selection as the fall-through state
  let (swap_1r, swap_2r, swap_1_rate_r, trade_1r) ←
    determine_swap_details tp.a_base tp.a_quote ask_a bid_a "reverse"
  let t1r ← dmul (EDec.fin 1) swap_1_rate_r
  let _acquired_coin_t1_r ← dmul t1r (EDec.fin (1 - fee))
  let self_r ← select_reverse tp pd self_f
  let arb_r ← finalize fee swap_1_rate_r self_r.swap_2_rate self_r.swap_3_rate
  pure ⟨⟨(swap_1f, swap_2f, swap_1_rate_f, trade_1f),
         (self_f.contract_2, self_f.swap_2_rate, self_f.direction_trade_2),
         (self_f.contract_3, self_f.swap_3_rate, self_f.direction_trade_3), arb_f⟩,
        ⟨(swap_1r, swap_2r, swap_1_rate_r, trade_1r),
         (self_r.contract_2, self_r.swap_2_rate, self_r.direction_trade_2),
         (self_r.contract_3, self_r.swap_3_rate, self_r.direction_trade_3), arb_r⟩⟩

/-- The input and output currency of a swap step, read off its contract and
direction tag: "base_to_quote" converts the contract's base into its quote,
"quote_to_base" converts its quote into its base. -/
def swap_io (contract : String) (tag : String) : Option (String × String) :=
  match split_market contract with
  | [b, q] => some (if tag = "base_to_quote" then (b, q) else (q, b))
  | _ => none

/-- A nonnegative finite decimal. -/
def EDec.isNonnegFin : EDec → Bool
  | .fin q => decide (0 ≤ q)
  | _ => false

/-- The triple of markets of the concrete scenario: BTC-EUR, ETH-EUR,
ETH-BTC. -/
def marketsBTC : List String := ["BTC-EUR", "ETH-EUR", "ETH-BTC"]

/-- The cycle the builder derives from `marketsBTC`: pair_a = BTC-EUR,
pair_b = ETH-EUR, pair_c = ETH-BTC, discovered in input order. -/
def tpBTC : TPair :=
  ⟨"BTC", "ETH", "ETH", "EUR", "EUR", "BTC",
   "BTC-EUR", "ETH-EUR", "ETH-BTC", "BTC-EUR,ETH-EUR,ETH-BTC"⟩

/-- The concrete-scenario snapshot: ask(BTC-EUR)=50000, bid(BTC-EUR)=49990,
ask(ETH-EUR)=3000, bid(ETH-EUR)=2995, ask(ETH-BTC)=0.06, bid(ETH-BTC)=0.0598. -/
def pdC4 : List (String × EDec) :=
  [("BTC-EUR_ask", EDec.fin 50000), ("BTC-EUR_bid", EDec.fin 49990),
   ("ETH-EUR_ask", EDec.fin 3000), ("ETH-EUR_bid", EDec.fin 2995),
   ("ETH-BTC_ask", EDec.fin (3/50)), ("ETH-BTC_bid", EDec.fin (299/5000))]

/-- `pdC4` with the ask of BTC-EUR present and equal to zero. -/
def pdZeroAsk : List (String × EDec) :=
  [("BTC-EUR_ask", EDec.fin 0), ("BTC-EUR_bid", EDec.fin 49990),
   ("ETH-EUR_ask", EDec.fin 3000), ("ETH-EUR_bid", EDec.fin 2995),
   ("ETH-BTC_ask", EDec.fin (3/50)), ("ETH-BTC_bid", EDec.fin (299/5000))]

/-- The trading fee of the concrete scenario, 0.2 percent. -/
def feeC : ℚ := 1/500

/-- Three markets forming a valid triangular cycle: pairwise distinct
symbols, each splitting into a base and a quote part with base and quote
different, such that each of the six currency symbols occurs exactly twice
across the triple. -/
def valid_triangle (m1 m2 m3 : String) : Prop :=
  m1 ≠ m2 ∧ m1 ≠ m3 ∧ m2 ≠ m3 ∧
  ∃ b1 q1 b2 q2 b3 q3,
    splitPair m1 = Except.ok (b1, q1) ∧
    splitPair m2 = Except.ok (b2, q2) ∧
    splitPair m3 = Except.ok (b3, q3) ∧
    b1 ≠ q1 ∧ b2 ≠ q2 ∧ b3 ≠ q3 ∧
    ∀ s ∈ [b1, q1, b2, q2, b3, q3], List.count s [b1, q1, b2, q2, b3, q3] = 2

/-- The deduplication key recomputed from a stored cycle's three market
symbols. -/
def keyOf (tp : TPair) : String := unique_key tp.pair_a tp.pair_b tp.pair_c

/-- The internal invariant of the builder state: the seen-keys list is
exactly the list of keys of the accepted cycles, without duplicates. -/
def build_inv (st : BuildState) : Prop :=
  st.remove_duplicates_list = st.triangular_pairs_list.map keyOf ∧
  st.remove_duplicates_list.Nodup

/-- The swap-2 / swap-3 selection computed for `tpBTC` in the forward
direction under any snapshot that quotes bid(ETH-EUR)=2995 and
ask(ETH-BTC)=0.06. -/
def sfC4 : SwapSel :=
  ⟨"ETH-EUR", EDec.fin 2995, "quote_to_base", "ETH-BTC", EDec.fin (50/3), "base_to_quote"⟩

/-- The surface dictionary computed for `tpBTC` under the concrete-scenario
snapshot `pdC4`, as a function of the fee. -/
def surfC4 (fee : ℚ) : Surface :=
  ⟨⟨("BTC", "EUR", EDec.fin (1/50000), "base_to_quote"),
    ("ETH-EUR", EDec.fin 2995, "quote_to_base"),
    ("ETH-BTC", EDec.fin (50/3), "base_to_quote"),
    EDec.fin ((1/50000) * 2995 * (50/3) * (1 - fee) ^ 3 - 1)⟩,
   ⟨("EUR", "BTC", EDec.fin 49990, "quote_to_base"),
    ("ETH-EUR", EDec.fin 2995, "quote_to_base"),
    ("ETH-BTC", EDec.fin (50/3), "base_to_quote"),
    EDec.fin (49990 * 2995 * (50/3) * (1 - fee) ^ 3 - 1)⟩⟩

/-- The surface dictionary computed for `tpBTC` under `pdZeroAsk`: the
present zero ask of pair_a makes the first forward rate the infinite
sentinel and the forward arbitrage rate positive infinity. -/
def surfZeroAsk : Surface :=
  ⟨⟨("BTC", "EUR", EDec.posInf, "base_to_quote"),
    ("ETH-EUR", EDec.fin 2995, "quote_to_base"),
    ("ETH-BTC", EDec.fin (50/3), "base_to_quote"),
    EDec.posInf⟩,
   ⟨("EUR", "BTC", EDec.fin 49990, "quote_to_base"),
    ("ETH-EUR", EDec.fin 2995, "quote_to_base"),
    ("ETH-BTC", EDec.fin (50/3), "base_to_quote"),
    EDec.fin (49990 * 2995 * (50/3) * (1 - feeC) ^ 3 - 1)⟩⟩

theorem safe_divide_one (d : EDec) : safe_divide (EDec.fin 1) d = some (recip1 d) := by
  cases d with
  | fin q =>
    by_cases h : q = 0
    · subst h; simp [safe_divide, recip1]
    · simp [safe_divide, recip1, ddiv, h]
  | posInf => simp [safe_divide, recip1, ddiv]
  | negInf => simp [safe_divide, recip1, ddiv]

theorem determine_forward (b q : String) (ask bid : EDec) :
    determine_swap_details b q ask bid "forward" =
      some (b, q, recip1 ask, "base_to_quote") := by
  simp [determine_swap_details, safe_divide_one]

theorem determine_reverse (b q : String) (ask bid : EDec) :
    determine_swap_details b q ask bid "reverse" =
      some (q, b, bid, "quote_to_base") := by
  simp [determine_swap_details]

theorem finalize_fin (fee q1 q2 q3 : ℚ) :
    finalize fee (EDec.fin q1) (EDec.fin q2) (EDec.fin q3) =
      some (EDec.fin (q1 * q2 * q3 * (1 - fee) ^ 3 - 1)) := by
  simp [finalize, apply_swap, dmul, ddiv, dsub]
  ring

theorem cal_unfold (tp : TPair) (pd : List (String × EDec)) (fee : ℚ) :
    cal_triangular_arb_surface_rate tp pd fee =
      (dmul (EDec.fin 1) (recip1 (pget (tp.pair_a ++ "_ask") EDec.posInf pd))).bind (fun t1f =>
      (dmul t1f (EDec.fin (1 - fee))).bind (fun _ =>
      (select_forward tp pd).bind (fun sf =>
      (finalize fee (recip1 (pget (tp.pair_a ++ "_ask") EDec.posInf pd))
          sf.swap_2_rate sf.swap_3_rate).bind (fun arbF =>
      (dmul (EDec.fin 1) (pget (tp.pair_a ++ "_bid") (EDec.fin 0) pd)).bind (fun t1r =>
      (dmul t1r (EDec.fin (1 - fee))).bind (fun _ =>
      (select_reverse tp pd sf).bind (fun sr =>
      (finalize fee (pget (tp.pair_a ++ "_bid") (EDec.fin 0) pd)
          sr.swap_2_rate sr.swap_3_rate).bind (fun arbR =>
      some ⟨⟨(tp.a_base, tp.a_quote,
              recip1 (pget (tp.pair_a ++ "_ask") EDec.posInf pd), "base_to_quote"),
             (sf.contract_2, sf.swap_2_rate, sf.direction_trade_2),
             (sf.contract_3, sf.swap_3_rate, sf.direction_trade_3), arbF⟩,
            ⟨(tp.a_quote, tp.a_base,
              pget (tp.pair_a ++ "_bid") (EDec.fin 0) pd, "quote_to_base"),
             (sr.contract_2, sr.swap_2_rate, sr.direction_trade_2),
             (sr.contract_3, sr.swap_3_rate, sr.direction_trade_3), arbR⟩⟩)))))))) := by
  simp only [cal_triangular_arb_surface_rate, determine_forward, determine_reverse,
    Option.bind_eq_bind, Option.some_bind, Option.pure_def]

theorem cal_components (tp : TPair) (pd : List (String × EDec)) (fee : ℚ) (s : Surface)
    (h : cal_triangular_arb_surface_rate tp pd fee = some s) :
    ∃ sf sr,
      select_forward tp pd = some sf ∧ select_reverse tp pd sf = some sr ∧
      s.forward.swap_1 = (tp.a_base, tp.a_quote,
        recip1 (pget (tp.pair_a ++ "_ask") EDec.posInf pd), "base_to_quote") ∧
      s.forward.swap_2 = (sf.contract_2, sf.swap_2_rate, sf.direction_trade_2) ∧
      s.forward.swap_3 = (sf.contract_3, sf.swap_3_rate, sf.direction_trade_3) ∧
      finalize fee (recip1 (pget (tp.pair_a ++ "_ask") EDec.posInf pd))
        sf.swap_2_rate sf.swap_3_rate = some s.forward.arbitrage_rate ∧
      s.reverse.swap_1 = (tp.a_quote, tp.a_base,
        pget (tp.pair_a ++ "_bid") (EDec.fin 0) pd, "quote_to_base") ∧
      s.reverse.swap_2 = (sr.contract_2, sr.swap_2_rate, sr.direction_trade_2) ∧
      s.reverse.swap_3 = (sr.contract_3, sr.swap_3_rate, sr.direction_trade_3) ∧
      finalize fee (pget (tp.pair_a ++ "_bid") (EDec.fin 0) pd)
        sr.swap_2_rate sr.swap_3_rate = some s.reverse.arbitrage_rate := by
  rw [cal_unfold] at h
  rw [Option.bind_eq_some] at h
  obtain ⟨t1f, -, h⟩ := h
  rw [Option.bind_eq_some] at h
  obtain ⟨af, -, h⟩ := h
  rw [Option.bind_eq_some] at h
  obtain ⟨sf, hsf, h⟩ := h
  rw [Option.bind_eq_some] at h
  obtain ⟨arbF, harbF, h⟩ := h
  rw [Option.bind_eq_some] at h
  obtain ⟨t1r, -, h⟩ := h
  rw [Option.bind_eq_some] at h
  obtain ⟨ar, -, h⟩ := h
  rw [Option.bind_eq_some] at h
  obtain ⟨sr, hsr, h⟩ := h
  rw [Option.bind_eq_some] at h
  obtain ⟨arbR, harbR, h⟩ := h
  rw [Option.some.injEq] at h
  subst h
  exact ⟨sf, sr, hsf, hsr, rfl, rfl, rfl, harbF, rfl, rfl, rfl, harbR⟩

theorem cal_total_fin (tp : TPair) (pd : List (String × EDec)) (fee : ℚ)
    (sf sr : SwapSel) (a1 a2 a3 b1 b2 b3 : ℚ)
    (hsf : select_forward tp pd = some sf)
    (hsr : select_reverse tp pd sf = some sr)
    (h1 : recip1 (pget (tp.pair_a ++ "_ask") EDec.posInf pd) = EDec.fin a1)
    (h2 : sf.swap_2_rate = EDec.fin a2)
    (h3 : sf.swap_3_rate = EDec.fin a3)
    (g1 : pget (tp.pair_a ++ "_bid") (EDec.fin 0) pd = EDec.fin b1)
    (g2 : sr.swap_2_rate = EDec.fin b2)
    (g3 : sr.swap_3_rate = EDec.fin b3) :
    cal_triangular_arb_surface_rate tp pd fee =
      some ⟨⟨(tp.a_base, tp.a_quote, EDec.fin a1, "base_to_quote"),
             (sf.contract_2, EDec.fin a2, sf.direction_trade_2),
             (sf.contract_3, EDec.fin a3, sf.direction_trade_3),
             EDec.fin (a1 * a2 * a3 * (1 - fee) ^ 3 - 1)⟩,
            ⟨(tp.a_quote, tp.a_base, EDec.fin b1, "quote_to_base"),
             (sr.contract_2, EDec.fin b2, sr.direction_trade_2),
             (sr.contract_3, EDec.fin b3, sr.direction_trade_3),
             EDec.fin (b1 * b2 * b3 * (1 - fee) ^ 3 - 1)⟩⟩ := by
  rw [cal_unfold, h1, g1, hsf]
  simp [hsr, h2, h3, g2, g3, dmul, finalize_fin]

theorem sfC4_eval : select_forward tpBTC pdC4 = some sfC4 := by
  simp [select_forward, tpBTC, pdC4, pget, safe_divide_one, recip1, sfC4]

theorem srC4_eval : select_reverse tpBTC pdC4 sfC4 = some sfC4 := by
  simp [select_reverse, tpBTC]

theorem calC4_eval (fee : ℚ) :
    cal_triangular_arb_surface_rate tpBTC pdC4 fee = some (surfC4 fee) := by
  have h1 : recip1 (pget (tpBTC.pair_a ++ "_ask") EDec.posInf pdC4) = EDec.fin (1/50000) := by
    simp [tpBTC, pdC4, pget, recip1]
  have g1 : pget (tpBTC.pair_a ++ "_bid") (EDec.fin 0) pdC4 = EDec.fin 49990 := by
    simp [tpBTC, pdC4, pget]
  have := cal_total_fin tpBTC pdC4 fee sfC4 sfC4 (1/50000) 2995 (50/3) 49990 2995 (50/3)
    sfC4_eval srC4_eval h1 rfl rfl g1 rfl rfl
  rw [this]
  simp [tpBTC, sfC4, surfC4]

theorem sfZeroAsk_eval : select_forward tpBTC pdZeroAsk = some sfC4 := by
  simp [select_forward, tpBTC, pdZeroAsk, pget, safe_divide_one, recip1, sfC4]

theorem calZeroAsk_eval :
    cal_triangular_arb_surface_rate tpBTC pdZeroAsk feeC = some surfZeroAsk := by
  have h1 : recip1 (pget (tpBTC.pair_a ++ "_ask") EDec.posInf pdZeroAsk) = EDec.posInf := by
    simp [tpBTC, pdZeroAsk, pget, recip1]
  have g1 : pget (tpBTC.pair_a ++ "_bid") (EDec.fin 0) pdZeroAsk = EDec.fin 49990 := by
    simp [tpBTC, pdZeroAsk, pget]
  have hsr : ∀ prev, select_reverse tpBTC pdZeroAsk prev = some prev := by
    intro prev
    simp [select_reverse, tpBTC]
  rw [cal_unfold, h1, g1, sfZeroAsk_eval]
  simp [hsr, sfC4, surfZeroAsk, dmul, finalize, apply_swap, ddiv, dsub, feeC]
  norm_num [tpBTC]

/-- C1: the claim asserts that the two reverse-direction conditions
`a_base = b_base` and `a_base = b_quote` are exhaustive over cycles
satisfying the closure invariant, so the reverse branch never falls through
to the forward-direction values.  This is false: the cycle
(BTC-EUR, ETH-EUR, ETH-BTC) satisfies the closure invariant, its pair_b
shares only a_quote with pair_a, so neither condition holds, and under the
concrete snapshot the reverse result's second and third swaps are exactly
the values computed for the forward direction. -/
theorem C1_counterexample :
    closure_invariant tpBTC ∧
    tpBTC.a_base ≠ tpBTC.b_base ∧ tpBTC.a_base ≠ tpBTC.b_quote ∧
    ∃ s, cal_triangular_arb_surface_rate tpBTC pdC4 feeC = some s ∧
      s.reverse.swap_2 = s.forward.swap_2 ∧ s.reverse.swap_3 = s.forward.swap_3 :=
  ⟨by decide, by decide, by decide, surfC4 feeC, calC4_eval feeC, rfl, rfl⟩

/-- C1 (amended): the two reverse-direction conditions are not exhaustive
over valid cycles.  Whenever a_base differs from both b_base and b_quote
(the topology in which pair_b shares only a_quote with pair_a), the reverse
branch falls through: the reverse result's second and third swaps (contract,
rate and direction tag) are exactly the values computed for the forward
direction. -/
theorem C1_reverse_fallthrough (tp : TPair) (pd : List (String × EDec)) (fee : ℚ)
    (s : Surface)
    (hb : tp.a_base ≠ tp.b_base) (hq : tp.a_base ≠ tp.b_quote)
    (h : cal_triangular_arb_surface_rate tp pd fee = some s) :
    s.reverse.swap_2 = s.forward.swap_2 ∧ s.reverse.swap_3 = s.forward.swap_3 := by
  obtain ⟨sf, sr, hsf, hsr, w1, w2, w3, hF, v1, v2, v3, hR⟩ := cal_components tp pd fee s h
  have hfall : select_reverse tp pd sf = some sf := by
    simp [select_reverse, hb, hq]
  rw [hfall] at hsr
  have : sf = sr := Option.some.inj hsr
  subst this
  rw [w2, w3, v2, v3]
  exact ⟨rfl, rfl⟩

/-- C1 witness: the fall-through theorem applied to the concrete cycle
(BTC-EUR, ETH-EUR, ETH-BTC) and the concrete snapshot. -/
theorem C1_reverse_fallthrough_witness :
    (surfC4 feeC).reverse.swap_2 = (surfC4 feeC).forward.swap_2 ∧
    (surfC4 feeC).reverse.swap_3 = (surfC4 feeC).forward.swap_3 :=
  C1_reverse_fallthrough tpBTC pdC4 feeC (surfC4 feeC)
    (by decide) (by decide) (calC4_eval feeC)

/-- C2: the claim asserts that with a present zero ask the computation
completes without a division fault and yields a deliberately unattractive,
zero-acquisition arbitrage rate.  The second half is false: with
ask(BTC-EUR) present and equal to zero, `safe_divide` makes the first
forward swap rate the infinite sentinel itself, and the forward
arbitrage_rate is positive infinity - strictly greater than zero, the most
attractive value possible, not a poor score. -/
theorem C2_counterexample :
    pget ("BTC-EUR" ++ "_ask") EDec.posInf pdZeroAsk = EDec.fin 0 ∧
    ∃ s, cal_triangular_arb_surface_rate tpBTC pdZeroAsk feeC = some s ∧
      s.forward.arbitrage_rate = EDec.posInf ∧
      dltB (EDec.fin 0) s.forward.arbitrage_rate = true :=
  ⟨rfl, surfZeroAsk, calZeroAsk_eval, rfl, rfl⟩

/-- C2 (amended): `safe_divide(n, d)` returns `n / d` for nonzero `d` and
the infinite sentinel for `d = 0`, so a present zero ask raises no division
fault; but the infinite sentinel becomes the swap rate itself, so with the
remaining quotes positive the arbitrage_rate is positive infinity - an
infinitely attractive outcome, not an unattractive zero-acquisition one
(zero acquisition arises for an absent or infinite ask instead, where the
rate 1/ask is zero). -/
theorem C2_zero_ask_sentinel :
    safe_divide (EDec.fin 1) (EDec.fin 0) = some EDec.posInf ∧
    safe_divide (EDec.fin 1) (EDec.fin 50000) = some (EDec.fin (1 / 50000)) ∧
    recip1 EDec.posInf = EDec.fin 0 ∧
    ∃ s, cal_triangular_arb_surface_rate tpBTC pdZeroAsk feeC = some s ∧
      s.forward.swap_1.2.2.1 = EDec.posInf ∧
      s.forward.arbitrage_rate = EDec.posInf ∧
      dltB (EDec.fin 0) s.forward.arbitrage_rate = true := by
  refine ⟨by norm_num [safe_divide, ddiv], by norm_num [safe_divide, ddiv], rfl,
    surfZeroAsk, calZeroAsk_eval, rfl, rfl, rfl⟩

/-- C4: the three markets BTC-EUR, ETH-EUR, ETH-BTC form exactly one cycle;
under the quoted snapshot with fee 0.002 both directions' arbitrage_rate
are finite decimals, and the forward path's three swap steps chain
currencies correctly: reading each step's input and output currency off its
contract and direction tag, the output of swap one (EUR) is the input of
swap two, and the output of swap two (ETH) is the input of swap three. -/
theorem C4_concrete_scenario :
    structure_triangular_pairs marketsBTC = Except.ok [tpBTC] ∧
    cal_triangular_arb_surface_rate tpBTC pdC4 feeC = some (surfC4 feeC) ∧
    (surfC4 feeC).forward.arbitrage_rate.isFinite = true ∧
    (surfC4 feeC).reverse.arbitrage_rate.isFinite = true ∧
    ∃ i1 o1 i2 o2 i3 o3,
      swap_io tpBTC.pair_a (surfC4 feeC).forward.swap_1.2.2.2 = some (i1, o1) ∧
      swap_io (surfC4 feeC).forward.swap_2.1 (surfC4 feeC).forward.swap_2.2.2
        = some (i2, o2) ∧
      swap_io (surfC4 feeC).forward.swap_3.1 (surfC4 feeC).forward.swap_3.2.2
        = some (i3, o3) ∧
      o1 = i2 ∧ o2 = i3 :=
  ⟨rfl, calC4_eval feeC, rfl, rfl,
   "BTC", "EUR", "EUR", "ETH", "ETH", "BTC", rfl, rfl, rfl, rfl, rfl⟩

theorem strLeB_total (a b : List Char) : strLeB a b = true ∨ strLeB b a = true := by
  induction a generalizing b with
  | nil => left; rfl
  | cons x xs ih =>
    cases b with
    | nil => right; rfl
    | cons y ys =>
      by_cases h1 : x < y
      · left; simp [strLeB, h1]
      · by_cases h2 : y < x
        · right; simp [strLeB, h2]
        · rcases ih ys with h | h
          · left; simp [strLeB, h1, h2, h]
          · right; simp [strLeB, h1, h2, h]

theorem strLeB_trans (a b c : List Char) (hab : strLeB a b = true)
    (hbc : strLeB b c = true) : strLeB a c = true := by
  induction a generalizing b c with
  | nil => rfl
  | cons x xs ih =>
    cases b with
    | nil => simp [strLeB] at hab
    | cons y ys =>
      cases c with
      | nil => simp [strLeB] at hbc
      | cons z zs =>
        by_cases h1 : x < y
        · by_cases h2 : y < z
          · simp [strLeB, lt_trans h1 h2]
          · by_cases h3 : z < y
            · simp [strLeB, h2, h3] at hbc
            · have : y = z := le_antisymm (not_lt.1 h3) (not_lt.1 h2)
              subst this
              simp [strLeB, h1]
        · by_cases h4 : y < x
          · simp [strLeB, h1, h4] at hab
          · have hxy : x = y := le_antisymm (not_lt.1 h4) (not_lt.1 h1)
            subst hxy
            by_cases h2 : x < z
            · simp [strLeB, h2]
            · by_cases h3 : z < x
              · simp [strLeB, h2, h3] at hbc
              · have : x = z := le_antisymm (not_lt.1 h3) (not_lt.1 h2)
                subst this
                simp [strLeB, h2, h3] at hab hbc ⊢
                exact ih ys zs hab hbc

theorem strLeB_antisymm (a b : List Char) (hab : strLeB a b = true)
    (hba : strLeB b a = true) : a = b := by
  induction a generalizing b with
  | nil =>
    cases b with
    | nil => rfl
    | cons y ys => simp [strLeB] at hba
  | cons x xs ih =>
    cases b with
    | nil => simp [strLeB] at hab
    | cons y ys =>
      by_cases h1 : x < y
      · simp [strLeB, h1, asymm h1] at hba
      · by_cases h2 : y < x
        · simp [strLeB, h1, h2] at hab
        · have hxy : x = y := le_antisymm (not_lt.1 h2) (not_lt.1 h1)
          subst hxy
          simp [strLeB, h1, h2] at hab hba
          rw [ih ys hab hba]

instance : IsTotal String strLe :=
  ⟨fun s t => strLeB_total s.data t.data⟩

instance : IsTrans String strLe :=
  ⟨fun a b c => strLeB_trans a.data b.data c.data⟩

instance : IsAntisymm String strLe :=
  ⟨fun a b hab hba => by
    cases a with
    | mk ad =>
      cases b with
      | mk bd =>
        rw [strLeB_antisymm ad bd hab hba]⟩

theorem unique_key_perm (l1 l2 : List String) (h : l1.Perm l2) :
    String.join (List.insertionSort strLe l1) = String.join (List.insertionSort strLe l2) := by
  congr 1
  refine List.eq_of_perm_of_sorted ?_ (List.sorted_insertionSort _ _)
    (List.sorted_insertionSort _ _)
  exact (List.perm_insertionSort _ _).trans (h.trans (List.perm_insertionSort _ _).symm)

theorem stepC_tps (pa ab aq pb bb bq pc cb cq : String) (st : BuildState) :
    ∃ tl, (stepC pa ab aq pb bb bq pc cb cq st).triangular_pairs_list =
      st.triangular_pairs_list ++ tl := by
  simp only [stepC]
  split_ifs <;> first
    | exact ⟨_, rfl⟩
    | exact ⟨[], by simp⟩

theorem stepC_inv (pa ab aq pb bb bq pc cb cq : String) (st : BuildState)
    (h : build_inv st) : build_inv (stepC pa ab aq pb bb bq pc cb cq st) := by
  obtain ⟨hmap, hnd⟩ := h
  unfold stepC
  split_ifs with h1 h2 h3
  · exact ⟨hmap, hnd⟩
  · refine ⟨?_, ?_⟩
    · simp [hmap, keyOf]
    · simp only [List.nodup_append, hnd, List.nodup_cons, List.not_mem_nil,
        not_false_iff, List.nodup_nil, and_true, true_and]
      intro a ha hb
      simp only [List.mem_singleton] at hb
      subst hb
      exact h3 ha
  · exact ⟨hmap, hnd⟩
  · exact ⟨hmap, hnd⟩

theorem stepC_mem (pa ab aq pb bb bq pc cb cq : String) (st : BuildState) (tp : TPair)
    (h : tp ∈ (stepC pa ab aq pb bb bq pc cb cq st).triangular_pairs_list) :
    tp ∈ st.triangular_pairs_list ∨
      (tp = ⟨ab, bb, cb, aq, bq, cq, pa, pb, pc, pa ++ "," ++ pb ++ "," ++ pc⟩ ∧
       pc ≠ pa ∧ pc ≠ pb ∧
       List.count cb [ab, aq, bb, bq, cb, cq] = 2 ∧
       List.count cq [ab, aq, bb, bq, cb, cq] = 2 ∧ cb ≠ cq) := by
  simp only [stepC] at h
  split_ifs at h with h1 h2 h3
  · exact Or.inl h
  · simp only [List.mem_append, List.mem_singleton] at h
    rcases h with h | h
    · exact Or.inl h
    · exact Or.inr ⟨h, h1.1, h1.2, h2.1, h2.2.1, h2.2.2⟩
  · exact Or.inl h
  · exact Or.inl h

theorem loopC_tps (pa ab aq pb bb bq : String) (l : List String) (st st' : BuildState)
    (h : loopC pa ab aq pb bb bq st l = Except.ok st') :
    ∃ tl, st'.triangular_pairs_list = st.triangular_pairs_list ++ tl := by
  induction l generalizing st with
  | nil =>
    rw [loopC] at h
    cases h
    exact ⟨[], by simp⟩
  | cons pc rest ih =>
    rw [loopC] at h
    cases hsp : splitPair pc with
    | error e => rw [hsp] at h; cases h
    | ok v =>
      obtain ⟨cb, cq⟩ := v
      rw [hsp] at h
      obtain ⟨tl1, h1⟩ := ih _ h
      obtain ⟨tl2, h2⟩ := stepC_tps pa ab aq pb bb bq pc cb cq st
      exact ⟨tl2 ++ tl1, by rw [h1, h2, List.append_assoc]⟩

theorem loopC_inv (pa ab aq pb bb bq : String) (l : List String) (st st' : BuildState)
    (h : loopC pa ab aq pb bb bq st l = Except.ok st') (hinv : build_inv st) :
    build_inv st' := by
  induction l generalizing st with
  | nil =>
    rw [loopC] at h
    cases h
    exact hinv
  | cons pc rest ih =>
    rw [loopC] at h
    cases hsp : splitPair pc with
    | error e => rw [hsp] at h; cases h
    | ok v =>
      obtain ⟨cb, cq⟩ := v
      rw [hsp] at h
      exact ih _ h (stepC_inv pa ab aq pb bb bq pc cb cq st hinv)

theorem loopC_mem (pa ab aq pb bb bq : String) (l : List String) (st st' : BuildState)
    (h : loopC pa ab aq pb bb bq st l = Except.ok st') (tp : TPair)
    (htp : tp ∈ st'.triangular_pairs_list) :
    tp ∈ st.triangular_pairs_list ∨
      ∃ pc cb cq, pc ∈ l ∧ splitPair pc = Except.ok (cb, cq) ∧
        tp = ⟨ab, bb, cb, aq, bq, cq, pa, pb, pc, pa ++ "," ++ pb ++ "," ++ pc⟩ ∧
        pc ≠ pa ∧ pc ≠ pb ∧
        List.count cb [ab, aq, bb, bq, cb, cq] = 2 ∧
        List.count cq [ab, aq, bb, bq, cb, cq] = 2 ∧ cb ≠ cq := by
  induction l generalizing st with
  | nil =>
    rw [loopC] at h
    cases h
    exact Or.inl htp
  | cons pc rest ih =>
    rw [loopC] at h
    cases hsp : splitPair pc with
    | error e => rw [hsp] at h; cases h
    | ok v =>
      obtain ⟨cb, cq⟩ := v
      rw [hsp] at h
      rcases ih _ h with hmem | ⟨pc', cb', cq', hin, hspl, heq, hg⟩
      · rcases stepC_mem pa ab aq pb bb bq pc cb cq st tp hmem with hmem' | ⟨heq, hg⟩
        · exact Or.inl hmem'
        · exact Or.inr ⟨pc, cb, cq, List.mem_cons_self _ _, hsp, heq, hg⟩
      · exact Or.inr ⟨pc', cb', cq', List.mem_cons_of_mem _ hin, hspl, heq, hg⟩

theorem loopB_tps (plist : List String) (pa ab aq : String) (l : List String)
    (st st' : BuildState)
    (h : loopB plist pa ab aq st l = Except.ok st') :
    ∃ tl, st'.triangular_pairs_list = st.triangular_pairs_list ++ tl := by
  induction l generalizing st with
  | nil =>
    rw [loopB] at h
    cases h
    exact ⟨[], by simp⟩
  | cons pb rest ih =>
    rw [loopB] at h
    cases hsp : splitPair pb with
    | error e => rw [hsp] at h; cases h
    | ok v =>
      obtain ⟨bb, bq⟩ := v
      rw [hsp] at h
      simp only [] at h
      by_cases hg : pb ≠ pa ∧ (bb = ab ∨ bb = aq ∨ bq = ab ∨ bq = aq)
      · rw [if_pos hg] at h
        cases hlc : loopC pa ab aq pb bb bq st plist with
        | error e => rw [hlc] at h; cases h
        | ok st'' =>
          rw [hlc] at h
          obtain ⟨tl1, h1⟩ := loopC_tps pa ab aq pb bb bq plist st st'' hlc
          obtain ⟨tl2, h2⟩ := ih _ h
          exact ⟨tl1 ++ tl2, by rw [h2, h1, List.append_assoc]⟩
      · rw [if_neg hg] at h
        exact ih _ h

theorem loopB_inv (plist : List String) (pa ab aq : String) (l : List String)
    (st st' : BuildState)
    (h : loopB plist pa ab aq st l = Except.ok st') (hinv : build_inv st) :
    build_inv st' := by
  induction l generalizing st with
  | nil =>
    rw [loopB] at h
    cases h
    exact hinv
  | cons pb rest ih =>
    rw [loopB] at h
    cases hsp : splitPair pb with
    | error e => rw [hsp] at h; cases h
    | ok v =>
      obtain ⟨bb, bq⟩ := v
      rw [hsp] at h
      simp only [] at h
      by_cases hg : pb ≠ pa ∧ (bb = ab ∨ bb = aq ∨ bq = ab ∨ bq = aq)
      · rw [if_pos hg] at h
        cases hlc : loopC pa ab aq pb bb bq st plist with
        | error e => rw [hlc] at h; cases h
        | ok st'' =>
          rw [hlc] at h
          exact ih _ h (loopC_inv pa ab aq pb bb bq plist st st'' hlc hinv)
      · rw [if_neg hg] at h
        exact ih _ h hinv

theorem loopB_mem (plist : List String) (pa ab aq : String) (l : List String)
    (st st' : BuildState)
    (h : loopB plist pa ab aq st l = Except.ok st') (tp : TPair)
    (htp : tp ∈ st'.triangular_pairs_list) :
    tp ∈ st.triangular_pairs_list ∨
      ∃ pb bb bq pc cb cq, pb ∈ l ∧ pc ∈ plist ∧
        splitPair pb = Except.ok (bb, bq) ∧ splitPair pc = Except.ok (cb, cq) ∧
        pb ≠ pa ∧ (bb = ab ∨ bb = aq ∨ bq = ab ∨ bq = aq) ∧
        tp = ⟨ab, bb, cb, aq, bq, cq, pa, pb, pc, pa ++ "," ++ pb ++ "," ++ pc⟩ ∧
        pc ≠ pa ∧ pc ≠ pb ∧
        List.count cb [ab, aq, bb, bq, cb, cq] = 2 ∧
        List.count cq [ab, aq, bb, bq, cb, cq] = 2 ∧ cb ≠ cq := by
  induction l generalizing st with
  | nil =>
    rw [loopB] at h
    cases h
    exact Or.inl htp
  | cons pb rest ih =>
    rw [loopB] at h
    cases hsp : splitPair pb with
    | error e => rw [hsp] at h; cases h
    | ok v =>
      obtain ⟨bb, bq⟩ := v
      rw [hsp] at h
      simp only [] at h
      by_cases hg : pb ≠ pa ∧ (bb = ab ∨ bb = aq ∨ bq = ab ∨ bq = aq)
      · rw [if_pos hg] at h
        cases hlc : loopC pa ab aq pb bb bq st plist with
        | error e => rw [hlc] at h; cases h
        | ok st'' =>
          rw [hlc] at h
          rcases ih _ h with hmem | ⟨pb', bb', bq', pc', cb', cq', hin, hrest⟩
          · rcases loopC_mem pa ab aq pb bb bq plist st st'' hlc tp hmem with
              hmem' | ⟨pc, cb, cq, hinpc, hspl, heq, hgc⟩
            · exact Or.inl hmem'
            · exact Or.inr ⟨pb, bb, bq, pc, cb, cq, List.mem_cons_self _ _, hinpc,
                hsp, hspl, hg.1, hg.2, heq, hgc⟩
          · exact Or.inr ⟨pb', bb', bq', pc', cb', cq', List.mem_cons_of_mem _ hin, hrest⟩
      · rw [if_neg hg] at h
        rcases ih _ h with hmem | ⟨pb', bb', bq', pc', cb', cq', hin, hrest⟩
        · exact Or.inl hmem
        · exact Or.inr ⟨pb', bb', bq', pc', cb', cq', List.mem_cons_of_mem _ hin, hrest⟩

theorem loopA_tps (plist : List String) (l : List String) (st st' : BuildState)
    (h : loopA plist st l = Except.ok st') :
    ∃ tl, st'.triangular_pairs_list = st.triangular_pairs_list ++ tl := by
  induction l generalizing st with
  | nil =>
    rw [loopA] at h
    cases h
    exact ⟨[], by simp⟩
  | cons pa rest ih =>
    rw [loopA] at h
    cases hsp : splitPair pa with
    | error e => rw [hsp] at h; cases h
    | ok v =>
      obtain ⟨ab, aq⟩ := v
      rw [hsp] at h
      simp only [] at h
      cases hlb : loopB plist pa ab aq st plist with
      | error e => rw [hlb] at h; cases h
      | ok st'' =>
        rw [hlb] at h
        obtain ⟨tl1, h1⟩ := loopB_tps plist pa ab aq plist st st'' hlb
        obtain ⟨tl2, h2⟩ := ih _ h
        exact ⟨tl1 ++ tl2, by rw [h2, h1, List.append_assoc]⟩

theorem loopA_inv (plist : List String) (l : List String) (st st' : BuildState)
    (h : loopA plist st l = Except.ok st') (hinv : build_inv st) :
    build_inv st' := by
  induction l generalizing st with
  | nil =>
    rw [loopA] at h
    cases h
    exact hinv
  | cons pa rest ih =>
    rw [loopA] at h
    cases hsp : splitPair pa with
    | error e => rw [hsp] at h; cases h
    | ok v =>
      obtain ⟨ab, aq⟩ := v
      rw [hsp] at h
      simp only [] at h
      cases hlb : loopB plist pa ab aq st plist with
      | error e => rw [hlb] at h; cases h
      | ok st'' =>
        rw [hlb] at h
        exact ih _ h (loopB_inv plist pa ab aq plist st st'' hlb hinv)

theorem loopA_mem (plist : List String) (l : List String) (st st' : BuildState)
    (h : loopA plist st l = Except.ok st') (tp : TPair)
    (htp : tp ∈ st'.triangular_pairs_list) :
    tp ∈ st.triangular_pairs_list ∨
      ∃ pa ab aq pb bb bq pc cb cq, pa ∈ l ∧ pb ∈ plist ∧ pc ∈ plist ∧
        splitPair pa = Except.ok (ab, aq) ∧
        splitPair pb = Except.ok (bb, bq) ∧ splitPair pc = Except.ok (cb, cq) ∧
        pb ≠ pa ∧ (bb = ab ∨ bb = aq ∨ bq = ab ∨ bq = aq) ∧
        tp = ⟨ab, bb, cb, aq, bq, cq, pa, pb, pc, pa ++ "," ++ pb ++ "," ++ pc⟩ ∧
        pc ≠ pa ∧ pc ≠ pb ∧
        List.count cb [ab, aq, bb, bq, cb, cq] = 2 ∧
        List.count cq [ab, aq, bb, bq, cb, cq] = 2 ∧ cb ≠ cq := by
  induction l generalizing st with
  | nil =>
    rw [loopA] at h
    cases h
    exact Or.inl htp
  | cons pa rest ih =>
    rw [loopA] at h
    cases hsp : splitPair pa with
    | error e => rw [hsp] at h; cases h
    | ok v =>
      obtain ⟨ab, aq⟩ := v
      rw [hsp] at h
      simp only [] at h
      cases hlb : loopB plist pa ab aq st plist with
      | error e => rw [hlb] at h; cases h
      | ok st'' =>
        rw [hlb] at h
        rcases ih _ h with hmem | ⟨pa', ab', aq', pb', bb', bq', pc', cb', cq', hin, hrest⟩
        · rcases loopB_mem plist pa ab aq plist st st'' hlb tp hmem with
            hmem' | ⟨pb, bb, bq, pc, cb, cq, hinb, hinc, hspb, hspc, hne, hshare, heq, hgc⟩
          · exact Or.inl hmem'
          · exact Or.inr ⟨pa, ab, aq, pb, bb, bq, pc, cb, cq, List.mem_cons_self _ _,
              hinb, hinc, hsp, hspb, hspc, hne, hshare, heq, hgc⟩
        · exact Or.inr ⟨pa', ab', aq', pb', bb', bq', pc', cb', cq',
            List.mem_cons_of_mem _ hin, hrest⟩

theorem builder_mem (coins : List String) (out : List TPair)
    (h : structure_triangular_pairs coins = Except.ok out) (tp : TPair)
    (htp : tp ∈ out) :
    ∃ pa ab aq pb bb bq pc cb cq, pa ∈ coins ∧ pb ∈ coins ∧ pc ∈ coins ∧
      splitPair pa = Except.ok (ab, aq) ∧
      splitPair pb = Except.ok (bb, bq) ∧ splitPair pc = Except.ok (cb, cq) ∧
      pb ≠ pa ∧ (bb = ab ∨ bb = aq ∨ bq = ab ∨ bq = aq) ∧
      tp = ⟨ab, bb, cb, aq, bq, cq, pa, pb, pc, pa ++ "," ++ pb ++ "," ++ pc⟩ ∧
      pc ≠ pa ∧ pc ≠ pb ∧
      List.count cb [ab, aq, bb, bq, cb, cq] = 2 ∧
      List.count cq [ab, aq, bb, bq, cb, cq] = 2 ∧ cb ≠ cq := by
  unfold structure_triangular_pairs at h
  cases hla : loopA coins ⟨[], []⟩ coins with
  | error e => rw [hla] at h; cases h
  | ok st =>
    rw [hla] at h
    cases h
    rcases loopA_mem coins coins ⟨[], []⟩ st hla tp htp with hmem | hgood
    · simp at hmem
    · exact hgood

theorem builder_inv (coins : List String) (st : BuildState)
    (h : loopA coins ⟨[], []⟩ coins = Except.ok st) : build_inv st :=
  loopA_inv coins coins ⟨[], []⟩ st h ⟨rfl, List.nodup_nil⟩

theorem splitPair_error (m : String) (h : (split_market m).length ≠ 2) :
    splitPair m = Except.error m := by
  cases hs : split_market m with
  | nil => simp [splitPair, hs]
  | cons b rest =>
    cases rest with
    | nil => simp [splitPair, hs]
    | cons q rest2 =>
      cases rest2 with
      | nil => rw [hs] at h; simp at h
      | cons r rest3 => simp [splitPair, hs]

theorem loopB_error (plist : List String) (pa ab aq : String) (l : List String)
    (st : BuildState) (m : String) (hm : m ∈ l) (hsp : splitPair m = Except.error m) :
    ∃ e, loopB plist pa ab aq st l = Except.error e := by
  induction l generalizing st with
  | nil => cases hm
  | cons pb rest ih =>
    rw [loopB]
    rcases List.mem_cons.mp hm with rfl | hm'
    · rw [hsp]
      exact ⟨m, rfl⟩
    · cases hsb : splitPair pb with
      | error e => exact ⟨e, rfl⟩
      | ok v =>
        obtain ⟨bb, bq⟩ := v
        simp only []
        by_cases hg : pb ≠ pa ∧ (bb = ab ∨ bb = aq ∨ bq = ab ∨ bq = aq)
        · rw [if_pos hg]
          cases hlc : loopC pa ab aq pb bb bq st plist with
          | error e => exact ⟨e, rfl⟩
          | ok st'' => exact ih st'' hm'
        · rw [if_neg hg]
          exact ih st hm'

theorem loopA_error (plist : List String) (l : List String) (st : BuildState)
    (m : String) (hm : m ∈ plist) (hsp : splitPair m = Except.error m)
    (pa : String) (rest : List String) (hl : l = pa :: rest) :
    ∃ e, loopA plist st l = Except.error e := by
  subst hl
  rw [loopA]
  cases hpa : splitPair pa with
  | error e => exact ⟨e, rfl⟩
  | ok v =>
    obtain ⟨ab, aq⟩ := v
    simp only []
    obtain ⟨e, he⟩ := loopB_error plist pa ab aq plist st m hm hsp
    rw [he]
    exact ⟨e, rfl⟩

/-- C9: a market list containing a malformed symbol (one that does not
split into exactly a base and a quote part on the dash separator) makes the
cycle builder fail fast: the two-element unpacking of the split raises, the
error is surfaced to the caller immediately (no cycle list is returned),
the malformed entry is not silently skipped and nothing is retried. -/
theorem C9_malformed_fail_fast (coin_list : List String)
    (h : ∃ m ∈ coin_list, (split_market m).length ≠ 2) :
    ∃ e, structure_triangular_pairs coin_list = Except.error e := by
  obtain ⟨m, hm, hlen⟩ := h
  have hsp := splitPair_error m hlen
  cases hcl : coin_list with
  | nil => rw [hcl] at hm; cases hm
  | cons pa rest =>
    rw [hcl] at hm
    obtain ⟨e, he⟩ := loopA_error (pa :: rest) (pa :: rest) ⟨[], []⟩ m hm hsp pa rest rfl
    unfold structure_triangular_pairs
    rw [he]
    exact ⟨e, rfl⟩

/-- C9 witness: a concrete list with the malformed symbol ETHEUR makes the
builder return an error. -/
theorem C9_malformed_fail_fast_witness :
    ∃ e, structure_triangular_pairs ["BTC-EUR", "ETHEUR", "ETH-BTC"] = Except.error e :=
  C9_malformed_fail_fast ["BTC-EUR", "ETHEUR", "ETH-BTC"]
    ⟨"ETHEUR", by decide, by decide⟩

theorem share_of_closure (b1 q1 b2 q2 b3 q3 : String)
    (hcnt : ∀ s ∈ [b1, q1, b2, q2, b3, q3], List.count s [b1, q1, b2, q2, b3, q3] = 2)
    (h1 : b1 ≠ q1) (h2 : b2 ≠ q2) :
    b2 = b1 ∨ b2 = q1 ∨ q2 = b1 ∨ q2 = q1 := by
  by_contra hc
  push_neg at hc
  obtain ⟨nb1, nb2, nq1, nq2⟩ := hc
  have hb2 := hcnt b2 (by simp)
  have hq2 := hcnt q2 (by simp)
  have hb1 := hcnt b1 (by simp)
  simp only [List.count_cons, List.count_nil] at hb2 hq2 hb1
  have hb2' : (b3 = b2 ∧ q3 ≠ b2) ∨ (b3 ≠ b2 ∧ q3 = b2) := by
    by_cases t1 : b3 = b2 <;> by_cases t2 : q3 = b2 <;>
      simp [t1, t2, Ne.symm nb1, Ne.symm nb2, Ne.symm h2] at hb2 ⊢
  have hq2' : (b3 = q2 ∧ q3 ≠ q2) ∨ (b3 ≠ q2 ∧ q3 = q2) := by
    by_cases t1 : b3 = q2 <;> by_cases t2 : q3 = q2 <;>
      simp [t1, t2, Ne.symm nq1, Ne.symm nq2, h2] at hq2 ⊢
  have hb1' : (b3 = b1 ∧ q3 ≠ b1) ∨ (b3 ≠ b1 ∧ q3 = b1) := by
    by_cases t1 : b3 = b1 <;> by_cases t2 : q3 = b1 <;>
      simp [t1, t2, Ne.symm h1, nb1, nq1] at hb1 ⊢
  rcases hb2' with ⟨t1, t2⟩ | ⟨t1, t2⟩ <;> rcases hq2' with ⟨t3, t4⟩ | ⟨t3, t4⟩ <;>
    rcases hb1' with ⟨t5, t6⟩ | ⟨t5, t6⟩
  · exact absurd (t1.symm.trans t3) h2
  · exact absurd (t1.symm.trans t3) h2
  · exact absurd (t1.symm.trans t5) nb1
  · exact absurd (t4.symm.trans t6) nq1
  · exact absurd (t3.symm.trans t5) nq1
  · exact absurd (t2.symm.trans t6) nb1
  · exact absurd (t2.symm.trans t4) h2
  · exact absurd (t2.symm.trans t4) h2

theorem loopC_ok (pa ab aq pb bb bq : String) (l : List String) (st : BuildState)
    (hw : ∀ m ∈ l, ∃ b q, splitPair m = Except.ok (b, q)) :
    ∃ st', loopC pa ab aq pb bb bq st l = Except.ok st' := by
  induction l generalizing st with
  | nil => exact ⟨st, rfl⟩
  | cons pc rest ih =>
    obtain ⟨cb, cq, hsp⟩ := hw pc (List.mem_cons_self _ _)
    rw [loopC, hsp]
    exact ih _ (fun m hm => hw m (List.mem_cons_of_mem _ hm))

theorem loopB_ok (plist : List String) (pa ab aq : String) (l : List String)
    (st : BuildState)
    (hwp : ∀ m ∈ plist, ∃ b q, splitPair m = Except.ok (b, q))
    (hw : ∀ m ∈ l, ∃ b q, splitPair m = Except.ok (b, q)) :
    ∃ st', loopB plist pa ab aq st l = Except.ok st' := by
  induction l generalizing st with
  | nil => exact ⟨st, rfl⟩
  | cons pb rest ih =>
    obtain ⟨bb, bq, hsp⟩ := hw pb (List.mem_cons_self _ _)
    rw [loopB, hsp]
    simp only []
    by_cases hg : pb ≠ pa ∧ (bb = ab ∨ bb = aq ∨ bq = ab ∨ bq = aq)
    · rw [if_pos hg]
      obtain ⟨st'', hlc⟩ := loopC_ok pa ab aq pb bb bq plist st hwp
      rw [hlc]
      exact ih _ (fun m hm => hw m (List.mem_cons_of_mem _ hm))
    · rw [if_neg hg]
      exact ih _ (fun m hm => hw m (List.mem_cons_of_mem _ hm))

theorem loopA_ok (plist : List String) (l : List String) (st : BuildState)
    (hwp : ∀ m ∈ plist, ∃ b q, splitPair m = Except.ok (b, q))
    (hw : ∀ m ∈ l, ∃ b q, splitPair m = Except.ok (b, q)) :
    ∃ st', loopA plist st l = Except.ok st' := by
  induction l generalizing st with
  | nil => exact ⟨st, rfl⟩
  | cons pa rest ih =>
    obtain ⟨ab, aq, hsp⟩ := hw pa (List.mem_cons_self _ _)
    rw [loopA, hsp]
    simp only []
    obtain ⟨st'', hlb⟩ := loopB_ok plist pa ab aq plist st hwp hwp
    rw [hlb]
    exact ih _ (fun m hm => hw m (List.mem_cons_of_mem _ hm))

theorem stepC_nonempty (pa ab aq pb bb bq pc cb cq : String) (st : BuildState)
    (hinv : build_inv st)
    (g1 : pc ≠ pa ∧ pc ≠ pb)
    (g2 : List.count cb [ab, aq, bb, bq, cb, cq] = 2 ∧
          List.count cq [ab, aq, bb, bq, cb, cq] = 2 ∧ cb ≠ cq) :
    (stepC pa ab aq pb bb bq pc cb cq st).triangular_pairs_list ≠ [] := by
  simp only [stepC, if_pos g1, if_pos g2]
  by_cases hk : unique_key pa pb pc ∈ st.remove_duplicates_list
  · rw [if_pos hk]
    intro hempty
    rw [hinv.1, hempty] at hk
    simp at hk
  · rw [if_neg hk]
    simp

theorem loopC_preserve_ne (pa ab aq pb bb bq : String) (l : List String)
    (st st' : BuildState) (h : loopC pa ab aq pb bb bq st l = Except.ok st')
    (hne : st.triangular_pairs_list ≠ []) : st'.triangular_pairs_list ≠ [] := by
  obtain ⟨tl, htl⟩ := loopC_tps pa ab aq pb bb bq l st st' h
  rw [htl]
  simp [hne]

theorem loopB_preserve_ne (plist : List String) (pa ab aq : String) (l : List String)
    (st st' : BuildState) (h : loopB plist pa ab aq st l = Except.ok st')
    (hne : st.triangular_pairs_list ≠ []) : st'.triangular_pairs_list ≠ [] := by
  obtain ⟨tl, htl⟩ := loopB_tps plist pa ab aq l st st' h
  rw [htl]
  simp [hne]

theorem loopA_preserve_ne (plist : List String) (l : List String)
    (st st' : BuildState) (h : loopA plist st l = Except.ok st')
    (hne : st.triangular_pairs_list ≠ []) : st'.triangular_pairs_list ≠ [] := by
  obtain ⟨tl, htl⟩ := loopA_tps plist l st st' h
  rw [htl]
  simp [hne]

theorem loopC_hits (pa ab aq pb bb bq pc0 cb cq : String) (l : List String)
    (st st' : BuildState)
    (h : loopC pa ab aq pb bb bq st l = Except.ok st')
    (hinv : build_inv st)
    (hmem : pc0 ∈ l) (hsp : splitPair pc0 = Except.ok (cb, cq))
    (g1 : pc0 ≠ pa ∧ pc0 ≠ pb)
    (g2 : List.count cb [ab, aq, bb, bq, cb, cq] = 2 ∧
          List.count cq [ab, aq, bb, bq, cb, cq] = 2 ∧ cb ≠ cq) :
    st'.triangular_pairs_list ≠ [] := by
  induction l generalizing st with
  | nil => cases hmem
  | cons pc rest ih =>
    rw [loopC] at h
    rcases List.mem_cons.mp hmem with rfl | hm'
    · rw [hsp] at h
      exact loopC_preserve_ne pa ab aq pb bb bq rest _ st' h
        (stepC_nonempty pa ab aq pb bb bq pc0 cb cq st hinv g1 g2)
    · cases hspc : splitPair pc with
      | error e => rw [hspc] at h; cases h
      | ok v =>
        obtain ⟨cb', cq'⟩ := v
        rw [hspc] at h
        exact ih _ h (stepC_inv pa ab aq pb bb bq pc cb' cq' st hinv) hm'

theorem loopB_hits (plist : List String) (pa ab aq : String)
    (pb0 bb bq pc0 cb cq : String) (l : List String) (st st' : BuildState)
    (h : loopB plist pa ab aq st l = Except.ok st')
    (hinv : build_inv st)
    (hmemb : pb0 ∈ l) (hspb : splitPair pb0 = Except.ok (bb, bq))
    (gB : pb0 ≠ pa ∧ (bb = ab ∨ bb = aq ∨ bq = ab ∨ bq = aq))
    (hmemc : pc0 ∈ plist) (hspc : splitPair pc0 = Except.ok (cb, cq))
    (g1 : pc0 ≠ pa ∧ pc0 ≠ pb0)
    (g2 : List.count cb [ab, aq, bb, bq, cb, cq] = 2 ∧
          List.count cq [ab, aq, bb, bq, cb, cq] = 2 ∧ cb ≠ cq) :
    st'.triangular_pairs_list ≠ [] := by
  induction l generalizing st with
  | nil => cases hmemb
  | cons pb rest ih =>
    rw [loopB] at h
    rcases List.mem_cons.mp hmemb with rfl | hm'
    · rw [hspb] at h
      simp only [] at h
      rw [if_pos gB] at h
      cases hlc : loopC pa ab aq pb0 bb bq st plist with
      | error e => rw [hlc] at h; cases h
      | ok st'' =>
        rw [hlc] at h
        exact loopB_preserve_ne plist pa ab aq rest st'' st' h
          (loopC_hits pa ab aq pb0 bb bq pc0 cb cq plist st st'' hlc hinv hmemc hspc g1 g2)
    · cases hspb' : splitPair pb with
      | error e => rw [hspb'] at h; cases h
      | ok v =>
        obtain ⟨bb', bq'⟩ := v
        rw [hspb'] at h
        simp only [] at h
        by_cases hg : pb ≠ pa ∧ (bb' = ab ∨ bb' = aq ∨ bq' = ab ∨ bq' = aq)
        · rw [if_pos hg] at h
          cases hlc : loopC pa ab aq pb bb' bq' st plist with
          | error e => rw [hlc] at h; cases h
          | ok st'' =>
            rw [hlc] at h
            exact ih _ h (loopC_inv pa ab aq pb bb' bq' plist st st'' hlc hinv) hm'
        · rw [if_neg hg] at h
          exact ih _ h hinv hm'

theorem loopA_hits (plist : List String) (pa0 ab aq pb0 bb bq pc0 cb cq : String)
    (l : List String) (st st' : BuildState)
    (h : loopA plist st l = Except.ok st')
    (hinv : build_inv st)
    (hmema : pa0 ∈ l) (hspa : splitPair pa0 = Except.ok (ab, aq))
    (hmemb : pb0 ∈ plist) (hspb : splitPair pb0 = Except.ok (bb, bq))
    (gB : pb0 ≠ pa0 ∧ (bb = ab ∨ bb = aq ∨ bq = ab ∨ bq = aq))
    (hmemc : pc0 ∈ plist) (hspc : splitPair pc0 = Except.ok (cb, cq))
    (g1 : pc0 ≠ pa0 ∧ pc0 ≠ pb0)
    (g2 : List.count cb [ab, aq, bb, bq, cb, cq] = 2 ∧
          List.count cq [ab, aq, bb, bq, cb, cq] = 2 ∧ cb ≠ cq) :
    st'.triangular_pairs_list ≠ [] := by
  induction l generalizing st with
  | nil => cases hmema
  | cons pa rest ih =>
    rw [loopA] at h
    rcases List.mem_cons.mp hmema with rfl | hm'
    · rw [hspa] at h
      simp only [] at h
      cases hlb : loopB plist pa0 ab aq st plist with
      | error e => rw [hlb] at h; cases h
      | ok st'' =>
        rw [hlb] at h
        exact loopA_preserve_ne plist rest st'' st' h
          (loopB_hits plist pa0 ab aq pb0 bb bq pc0 cb cq plist st st'' hlb hinv
            hmemb hspb gB hmemc hspc g1 g2)
    · cases hspa' : splitPair pa with
      | error e => rw [hspa'] at h; cases h
      | ok v =>
        obtain ⟨ab', aq'⟩ := v
        rw [hspa'] at h
        simp only [] at h
        cases hlb : loopB plist pa ab' aq' st plist with
        | error e => rw [hlb] at h; cases h
        | ok st'' =>
          rw [hlb] at h
          exact ih _ h (loopB_inv plist pa ab' aq' plist st st'' hlb hinv) hm'

/-- C6: for every three markets forming a valid triangular cycle, feeding
the cycle builder any permutation of the three (as the whole market list)
emits exactly one Cycle: some ordered assignment passes the closure guards,
and all passing assignments share the same deduplication key (the sorted
concatenation of the three market symbols), so every candidate after the
first is discarded. -/
theorem C6_dedup_property (m1 m2 m3 : String) (l : List String)
    (hv : valid_triangle m1 m2 m3) (hperm : l.Perm [m1, m2, m3]) :
    ∃ tp, structure_triangular_pairs l = Except.ok [tp] := by
  obtain ⟨h12, h13, h23, b1, q1, b2, q2, b3, q3, hs1, hs2, hs3, hbq1, hbq2, hbq3, hcnt⟩ := hv
  have hwf : ∀ m ∈ l, ∃ b q, splitPair m = Except.ok (b, q) := by
    intro m hm
    have hm3 : m ∈ [m1, m2, m3] := hperm.subset hm
    simp only [List.mem_cons, List.not_mem_nil, or_false] at hm3
    rcases hm3 with rfl | rfl | rfl
    · exact ⟨b1, q1, hs1⟩
    · exact ⟨b2, q2, hs2⟩
    · exact ⟨b3, q3, hs3⟩
  obtain ⟨stf, hstf⟩ := loopA_ok l l ⟨[], []⟩ hwf hwf
  have hout : structure_triangular_pairs l = Except.ok stf.triangular_pairs_list := by
    unfold structure_triangular_pairs
    rw [hstf]
  have hm1 : m1 ∈ l := hperm.mem_iff.mpr (by simp)
  have hm2 : m2 ∈ l := hperm.mem_iff.mpr (by simp)
  have hm3 : m3 ∈ l := hperm.mem_iff.mpr (by simp)
  have hinv := builder_inv l stf hstf
  have hshare : b2 = b1 ∨ b2 = q1 ∨ q2 = b1 ∨ q2 = q1 :=
    share_of_closure b1 q1 b2 q2 b3 q3 hcnt hbq1 hbq2
  have hne : stf.triangular_pairs_list ≠ [] :=
    loopA_hits l m1 b1 q1 m2 b2 q2 m3 b3 q3 l ⟨[], []⟩ stf hstf ⟨rfl, List.nodup_nil⟩
      hm1 hs1 hm2 hs2 ⟨Ne.symm h12, hshare⟩ hm3 hs3 ⟨Ne.symm h13, Ne.symm h23⟩
      ⟨hcnt b3 (by simp), hcnt q3 (by simp), hbq3⟩
  have hllen : l.length = 3 := hperm.length_eq
  have hkeys : ∀ tp ∈ stf.triangular_pairs_list,
      keyOf tp = String.join (List.insertionSort strLe l) := by
    intro tp htp
    obtain ⟨pa, ab, aq, pb, bb, bq, pc, cb, cq, hina, hinb, hinc, hspa, hspb, hspc,
      hne_ba, hsh, heq, hne_ca, hne_cb, hcb', hcq', hnecc⟩ :=
      builder_mem l stf.triangular_pairs_list hout tp htp
    subst heq
    have hnodup3 : ([pa, pb, pc] : List String).Nodup := by
      have e1 : pa ≠ pb := fun e => hne_ba e.symm
      have e2 : pa ≠ pc := fun e => hne_ca e.symm
      have e3 : pb ≠ pc := fun e => hne_cb e.symm
      simp [e1, e2, e3]
    have hsub : [pa, pb, pc] ⊆ l := by
      intro x hx
      simp only [List.mem_cons, List.not_mem_nil, or_false] at hx
      rcases hx with rfl | rfl | rfl <;> assumption
    have hsp3 : ([pa, pb, pc] : List String).Perm l :=
      (hnodup3.subperm hsub).perm_of_length_le (by simp [hllen])
    exact unique_key_perm [pa, pb, pc] l hsp3
  have hmapnd : (stf.triangular_pairs_list.map keyOf).Nodup := by
    rw [← hinv.1]
    exact hinv.2
  cases hl : stf.triangular_pairs_list with
  | nil => exact absurd hl hne
  | cons tp rest =>
    cases hr : rest with
    | nil => exact ⟨tp, by rw [hout, hl, hr]⟩
    | cons tp2 rest2 =>
      exfalso
      have h1k := hkeys tp (by rw [hl]; exact List.mem_cons_self _ _)
      have h2k := hkeys tp2 (by rw [hl, hr]; simp)
      rw [hl, hr] at hmapnd
      simp only [List.map_cons, List.nodup_cons, List.mem_cons] at hmapnd
      exact hmapnd.1 (Or.inl (h1k.trans h2k.symm))

/-- C6 witness: the dedup property applied to the concrete triple
BTC-EUR, ETH-EUR, ETH-BTC fed in a permuted order. -/
theorem C6_dedup_property_witness :
    ∃ tp, structure_triangular_pairs ["ETH-BTC", "BTC-EUR", "ETH-EUR"] = Except.ok [tp] :=
  C6_dedup_property "BTC-EUR" "ETH-EUR" "ETH-BTC" ["ETH-BTC", "BTC-EUR", "ETH-EUR"]
    ⟨by decide, by decide, by decide,
     "BTC", "EUR", "ETH", "EUR", "ETH", "BTC",
     by rfl, by rfl, by rfl, by decide, by decide, by decide, by decide⟩
    (by decide)
